import Mathlib

/-!
Shallow embedding of pdinklag/random-permutation.

The embedded code is `include/random_permutation.hpp` together with
`include/internal/math_utils.hpp` (the copy under `src/` of this
repository).  All machine integers are `uint64_t`; they are modelled as
`ℕ` with an explicit `% U64` wherever the C computation can wrap
(subtraction and addition that may underflow or overflow), and plain `ℕ`
arithmetic where a `uint64_t` computation cannot wrap (for instance the
`__uint128_t` widened product `x * x` of two 64-bit values, which is
exact).  The two `while` loops whose progress relies on unsigned
wraparound (`prime_predecessor`'s downward scan and the `p = (3 mod 4)`
search) are modelled with an explicit fuel argument returning `Option`;
all theorems about them hold for every fuel.  Loops with a structural
bound (the digit loop of `isqrt_floor`, the small-prime table scan, the
6k±1 wheel, iterator traversal) get that bound as their recursion
argument or as fuel that provably exceeds the iteration count.
-/

/-- Modulus of 64-bit unsigned arithmetic (`uint64_t` wraps at this value). -/
def U64 : ℕ := 2 ^ 64

/-- C++ `pow2(x)`: `uint64_t(1) << x`. -/
def pow2 (x : ℕ) : ℕ := 1 <<< x

/-- C++ `SHUFFLE1`: first fixed seed-mixing constant. -/
def SHUFFLE1 : ℕ := 0x9696594B6A5936B2

/-- C++ `SHUFFLE2`: second fixed seed-mixing constant. -/
def SHUFFLE2 : ℕ := 0xD2165B4B66592AD6

/-- C++ `common_universes`: the `(universe, prime)` fast-path pairs, in
order, without the `{0, 0}` sentinel that only terminates the C scan. -/
def common_universes : List (ℕ × ℕ) :=
  [(pow2 16 - 2, pow2 16 - 17),
   (pow2 16 - 1, pow2 16 - 17),
   (pow2 24 - 2, pow2 24 - 17),
   (pow2 24 - 1, pow2 24 - 17),
   (pow2 32 - 2, pow2 32 - 5),
   (pow2 32 - 1, pow2 32 - 5),
   (pow2 40 - 2, pow2 40 - 213),
   (pow2 40 - 1, pow2 40 - 213),
   (pow2 48 - 2, pow2 48 - 65),
   (pow2 48 - 1, pow2 48 - 65),
   (pow2 56 - 2, pow2 56 - 5),
   (pow2 56 - 1, pow2 56 - 5),
   (pow2 63 - 2, pow2 63 - 25),
   (pow2 63 - 1, pow2 63 - 25),
   (U64 - 2, 0xFFFFFFFFFFFFFF43),
   (U64 - 1, 0xFFFFFFFFFFFFFF43)]

/-- Fuel-bounded binary logarithm: `log2_fuel f n` equals `floor (log2 n)`
whenever `f ≥ n` (each step halves `n`, so fuel `n` always suffices).
Used to model `std::bit_width`. -/
def log2_fuel : ℕ → ℕ → ℕ
  | 0, _ => 0
  | f + 1, n => if 2 ≤ n then log2_fuel f (n / 2) + 1 else 0

/-- C++ `std::bit_width(x)`: `0` for `x = 0`, else `floor (log2 x) + 1`. -/
def bit_width (x : ℕ) : ℕ := if x = 0 then 0 else log2_fuel x x + 1

/-- The digit loop of C++ `isqrt_floor`: one iteration per remaining
exponent `e` (the C loop is `while(e--)`, so the body sees the
decremented value).  All `uint64_t` operations carry their `% U64`. -/
def isqrt_loop (x : ℕ) : ℕ → ℕ → ℕ
  | 0, r => r
  | e + 1, r =>
    let cur := x >>> (e <<< 1)
    let sm := (r <<< 1) % U64
    let lg := (sm + 1) % U64
    isqrt_loop x e ((sm + (if lg * lg % U64 ≤ cur then 1 else 0)) % U64)

/-- C++ `isqrt_floor`. -/
def isqrt_floor (x : ℕ) : ℕ :=
  if x < 4 then (if 0 < x then 1 else 0)
  else isqrt_loop x (bit_width x >>> 1) 1

/-- C++ `isqrt_ceil`. -/
def isqrt_ceil (x : ℕ) : ℕ :=
  let r := isqrt_floor x
  (r + (if r * r % U64 < x then 1 else 0)) % U64

/-- C++ `SMALL_PRIMES[2..54]`: the tail of the small-prime table from the
index `j = 2` where the scan of `is_prime` starts (entries `1` and `2` at
indices 0 and 1 are never read). -/
def small_primes_from_two : List ℕ :=
  [3, 5, 7, 11, 13, 17, 19, 23, 29, 31, 37, 41, 43, 47, 53, 59, 61, 67,
   71, 73, 79, 83, 89, 97, 101, 103, 107, 109, 113, 127, 131, 137, 139,
   149, 151, 157, 163, 167, 173, 179, 181, 191, 193, 197, 199, 211, 223,
   227, 229, 233, 239, 241, 251]

/-- The first loop of C++ `is_prime`: scan the small-prime table while
`i ≤ m` and `j < NUM_SMALL_PRIMES - 1`.  `none` means a divisor was
found; `some i` is the value of `i` when the loop exits (the condition
`j < 54` fails exactly when one table entry is left, hence the one-element
case). -/
def small_prime_loop (p m : ℕ) : List ℕ → Option ℕ
  | [] => some 0
  | [i] => some i
  | i :: rest => if i ≤ m then (if p % i = 0 then none else small_prime_loop p m rest) else some i

/-- The 6k±1 wheel of C++ `is_prime` (`while(i <= m) { ...; i += 6; }`),
with fuel.  The fuel `m + 1` that `is_prime` passes always exceeds the
iteration count (`i` starts at `1` or more and grows by `6` while
`i ≤ m`), so the `0` case is never reached from `is_prime`; `i + 6`
cannot wrap since `i ≤ m < 2^64 - 6` in every reachable call. -/
def wheel_loop (p m : ℕ) : ℕ → ℕ → Bool
  | 0, _ => true
  | f + 1, i =>
    if i ≤ m then
      (if p % i = 0 ∨ p % (i + 2) = 0 then false else wheel_loop p m f (i + 6))
    else true

/-- C++ `is_prime`.  The re-indexing `i = 5 + ((i - 5) / 6) * 6` is
`uint64_t` arithmetic: `i - 5` underflows for the exit value `i = 3`
(which happens when `m < 3`), hence the explicit `% U64` wraps. -/
def is_prime (p : ℕ) : Bool :=
  if p % 2 = 0 then false
  else
    let m := isqrt_ceil p
    match small_prime_loop p m small_primes_from_two with
    | none => false
    | some i => wheel_loop p m (m + 1) ((5 + (i + U64 - 5) % U64 / 6 * 6) % U64)

/-- The scan `while(!is_prime(p)) p -= 2;` of C++ `prime_predecessor`,
with fuel (`p -= 2` wraps at zero, so the loop has no structural bound). -/
def pred_loop : ℕ → ℕ → Option ℕ
  | 0, _ => none
  | f + 1, p => if is_prime p then some p else pred_loop f ((p + U64 - 2) % U64)

/-- C++ `prime_predecessor`, with fuel for its scan loop. -/
def prime_predecessor (fuel p : ℕ) : Option ℕ :=
  if p = 0 then some 0
  else if p = 2 then some 2
  else pred_loop fuel (if p % 2 = 0 then p - 1 else p)

/-- The loop `while((p & 3) != 3) p = prime_predecessor(p - 1);` of C++
`prev_prime_3mod4`, with fuel (`p & 3ULL` is `p % 4`; `p - 1` is
`uint64_t` subtraction, hence the `% U64` wrap). -/
def prev_loop : ℕ → ℕ → Option ℕ
  | 0, _ => none
  | f + 1, p =>
    if p % 4 = 3 then some p
    else (prime_predecessor (f + 1) ((p + U64 - 1) % U64)).bind (prev_loop f)

/-- C++ `RandomPermutation::prev_prime_3mod4`: the table scan (the C
loop runs to the `{0, 0}` sentinel, i.e. a first-match lookup over the
16 real entries), then the search. -/
def prev_prime_3mod4 (fuel u : ℕ) : Option ℕ :=
  match common_universes.find? (fun e => e.1 == u) with
  | some e => some e.2
  | none => (prime_predecessor fuel u).bind (prev_loop fuel)

/-- The state of C++ `RandomPermutation`: the three scalar members. -/
structure RandomPermutation where
  universe_ : ℕ
  seed_ : ℕ
  prime_ : ℕ
deriving DecidableEq

/-- C++ `RandomPermutation()`: the default constructor
(`universe_(1), seed_(0), prime_(0)`). -/
def rpDefault : RandomPermutation := ⟨1, 0, 0⟩

/-- C++ `RandomPermutation(universe, seed)`, with fuel for the prime
search.  `(seed ^ SHUFFLE1) ^ SHUFFLE2` never exceeds 64 bits for 64-bit
inputs, so the xor carries no wrap. -/
def rpMake (fuel univ seed : ℕ) : Option RandomPermutation :=
  (prev_prime_3mod4 fuel univ).map fun p =>
    ⟨univ, (seed ^^^ SHUFFLE1) ^^^ SHUFFLE2, p⟩

/-- C++ `RandomPermutation::permute` as a function of the `prime_`
member.  The product `x * x` is computed in `__uint128_t`, which is exact
for 64-bit `x`, so it needs no `% U64`; `prime_ >> 1` is division by two;
`prime_ - r` cannot wrap since `r < prime_` in that branch. -/
def permute (prime x : ℕ) : ℕ :=
  if prime ≤ x then x
  else
    let r := x * x % prime
    if x ≤ prime >>> 1 then r else prime - r

/-- C++ `RandomPermutation::operator()`: the public query.  The sum
`seed_ + permute(i)` is `uint64_t` addition, hence `% U64` before the
reduction modulo `universe_`. -/
def RandomPermutation.apply (P : RandomPermutation) (i : ℕ) : ℕ :=
  permute P.prime_ ((P.seed_ + permute P.prime_ i) % U64 % P.universe_)

/-- A definition following the spec's words for the query (C2): apply the
internal quadratic-residue permutation to `i`, add
`seed_internal = seed XOR SHUFFLE1 XOR SHUFFLE2` (64-bit addition),
reduce modulo `universe`, apply the permutation again. -/
def spec_permute_index (univ prime seed i : ℕ) : ℕ :=
  let seed_internal := (seed ^^^ SHUFFLE1) ^^^ SHUFFLE2
  permute prime ((seed_internal + permute prime i) % U64 % univ)

/-- The state of C++ `RandomPermutation::Iterator`: current index and
overflow flag (the `perm_` pointer is the `RandomPermutation` argument
of the operations below; C++ `==` compares `x_` and `overflow_` of two
iterators over the same permutation). -/
structure Iterator where
  x_ : ℕ
  overflow_ : Bool
deriving DecidableEq

/-- C++ `Iterator(perm, x)`: `overflow_(x_ > perm.universe_)`. -/
def RandomPermutation.iterAt (P : RandomPermutation) (x : ℕ) : Iterator :=
  ⟨x, decide (P.universe_ < x)⟩

/-- C++ `RandomPermutation::begin()`: `Iterator(*this, 0)`. -/
def RandomPermutation.iterBegin (P : RandomPermutation) : Iterator := P.iterAt 0

/-- C++ `RandomPermutation::end()`: `Iterator(*this, universe_ + 1, true)`
(the `+ 1` is `uint64_t` addition and wraps at `universe_ = 2^64 - 1`). -/
def RandomPermutation.iterEnd (P : RandomPermutation) : Iterator :=
  ⟨(P.universe_ + 1) % U64, true⟩

/-- C++ `Iterator::operator++`: `overflow_ = (x_ == perm_->universe_); ++x_;`
(the flag reads the old `x_`; the increment wraps). -/
def RandomPermutation.iterStep (P : RandomPermutation) (it : Iterator) : Iterator :=
  ⟨(it.x_ + 1) % U64, decide (it.x_ = P.universe_)⟩

/-- C++ `Iterator::operator*`: `(*perm_)(x_)`. -/
def RandomPermutation.iterDeref (P : RandomPermutation) (it : Iterator) : ℕ :=
  P.apply it.x_

/-- The indices a `begin()`-to-`end()` loop dereferences: repeatedly
compare with `end()`, record `x_`, advance.  Fuel-bounded; fuel
`universe_ + 2` suffices for a full traversal from `begin()`. -/
def RandomPermutation.iterIdx (P : RandomPermutation) : ℕ → Iterator → List ℕ
  | 0, _ => []
  | f + 1, it => if it = P.iterEnd then [] else it.x_ :: P.iterIdx f (P.iterStep it)

/-! ### Arithmetic bridges -/

theorem U64_eq : U64 = 18446744073709551616 := by norm_num [U64]

theorem shiftRight_one_eq (n : ℕ) : n >>> 1 = n / 2 := by
  simpa using Nat.shiftRight_eq_div_pow n 1

theorem wrap_sub_two {v : ℕ} (h2 : 2 ≤ v) (hlt : v < U64) :
    (v + U64 - 2) % U64 = v - 2 := by
  have h : v + U64 - 2 = (v - 2) + 1 * U64 := by omega
  rw [h, Nat.add_mul_mod_self_right, Nat.mod_eq_of_lt (by omega)]

theorem wrap_sub_one {v : ℕ} (h1 : 1 ≤ v) (hlt : v < U64) :
    (v + U64 - 1) % U64 = v - 1 := by
  have h : v + U64 - 1 = (v - 1) + 1 * U64 := by omega
  rw [h, Nat.add_mul_mod_self_right, Nat.mod_eq_of_lt (by omega)]

/-! ### Facts about `is_prime` needed by the loop invariants -/

theorem is_prime_odd {p : ℕ} (h : is_prime p = true) : p % 2 = 1 := by
  by_contra hne
  have h0 : p % 2 = 0 := by omega
  simp [is_prime, h0] at h

theorem is_prime_five_le {p : ℕ} (h : is_prime p = true) : 5 ≤ p := by
  by_contra hlt
  push_neg at hlt
  interval_cases p <;> exact absurd h (by decide)

/-! ### Invariants of the prime-predecessor scan -/

theorem pred_loop_some_is_prime : ∀ f v r, pred_loop f v = some r → is_prime r = true := by
  intro f
  induction f with
  | zero => simp [pred_loop]
  | succ f ih =>
    intro v r h
    by_cases hv : is_prime v
    · simp only [pred_loop, hv, if_true, Option.some.injEq] at h
      exact h ▸ hv
    · simp only [pred_loop, hv, if_false, Bool.false_eq_true] at h
      exact ih _ _ h

theorem pred_loop_bounds : ∀ f v r, v % 2 = 1 → 5 ≤ v → v < U64 →
    pred_loop f v = some r → r ≤ v ∧ 5 ≤ r ∧ (7 ≤ v → 7 ≤ r) := by
  intro f
  induction f with
  | zero => simp [pred_loop]
  | succ f ih =>
    intro v r hodd h5 hlt h
    by_cases hv : is_prime v
    · simp only [pred_loop, hv, if_true, Option.some.injEq] at h
      subst h
      exact ⟨le_refl _, h5, fun h7 => h7⟩
    · simp only [pred_loop, hv, if_false, Bool.false_eq_true] at h
      have hv5 : v ≠ 5 := by rintro rfl; exact hv (by decide)
      have hv7 : v ≠ 7 := by rintro rfl; exact hv (by decide)
      have h9 : 9 ≤ v := by omega
      rw [wrap_sub_two (by omega) hlt] at h
      obtain ⟨h1, h2, h3⟩ := ih (v - 2) r (by omega) (by omega) (by omega) h
      exact ⟨by omega, h2, fun _ => h3 (by omega)⟩

theorem prime_predecessor_cases {f p r : ℕ} (h : prime_predecessor f p = some r) :
    (p = 0 ∧ r = 0) ∨ (p = 2 ∧ r = 2) ∨ is_prime r = true := by
  unfold prime_predecessor at h
  by_cases h0 : p = 0
  · subst h0
    simp only [if_true, Option.some.injEq] at h
    exact Or.inl ⟨rfl, by omega⟩
  by_cases h2 : p = 2
  · subst h2
    rw [if_neg (by norm_num), if_pos rfl] at h
    simp only [Option.some.injEq] at h
    exact Or.inr (Or.inl ⟨rfl, by omega⟩)
  · rw [if_neg h0, if_neg h2] at h
    exact Or.inr (Or.inr (pred_loop_some_is_prime _ _ _ h))

theorem prime_predecessor_bounds {f p r : ℕ} (h7 : 7 ≤ p) (hlt : p < U64)
    (h : prime_predecessor f p = some r) :
    is_prime r = true ∧ 7 ≤ r ∧ r ≤ p := by
  unfold prime_predecessor at h
  rw [if_neg (by omega), if_neg (by omega)] at h
  have hip := pred_loop_some_is_prime _ _ _ h
  by_cases hpar : p % 2 = 0
  · rw [if_pos hpar] at h
    obtain ⟨h1, h2, h3⟩ := pred_loop_bounds f (p - 1) r (by omega) (by omega) (by omega) h
    exact ⟨hip, h3 (by omega), by omega⟩
  · rw [if_neg hpar] at h
    obtain ⟨h1, h2, h3⟩ := pred_loop_bounds f p r (by omega) (by omega) (by omega) h
    exact ⟨hip, h3 (by omega), by omega⟩

/-! ### Invariants of the `p = (3 mod 4)` search loop -/

theorem prev_loop_mod4 : ∀ f p r, prev_loop f p = some r →
    r % 4 = 3 ∧ (is_prime r = true ∨ r = p) := by
  intro f
  induction f with
  | zero => simp [prev_loop]
  | succ f ih =>
    intro p r h
    by_cases h3 : p % 4 = 3
    · simp only [prev_loop, h3, if_true, Option.some.injEq] at h
      subst h
      exact ⟨h3, Or.inr rfl⟩
    · simp only [prev_loop, h3, if_false] at h
      obtain ⟨q, hq, hr⟩ := Option.bind_eq_some.mp h
      obtain ⟨hm, hpr⟩ := ih q r hr
      rcases hpr with hip | rfl
      · exact ⟨hm, Or.inl hip⟩
      · rcases prime_predecessor_cases hq with ⟨_, rfl⟩ | ⟨_, rfl⟩ | hip
        · simp at hm
        · simp at hm
        · exact ⟨hm, Or.inl hip⟩

theorem prev_loop_bounds : ∀ f p r, is_prime p = true → 7 ≤ p → p < U64 →
    prev_loop f p = some r → 7 ≤ r ∧ r ≤ p := by
  intro f
  induction f with
  | zero => simp [prev_loop]
  | succ f ih =>
    intro p r hp h7 hlt h
    by_cases h3 : p % 4 = 3
    · simp only [prev_loop, h3, if_true, Option.some.injEq] at h
      subst h
      exact ⟨h7, le_refl _⟩
    · simp only [prev_loop, h3, if_false] at h
      obtain ⟨q, hq, hr⟩ := Option.bind_eq_some.mp h
      have hodd := is_prime_odd hp
      have hne7 : p ≠ 7 := by rintro rfl; exact h3 (by decide)
      have h9 : 9 ≤ p := by omega
      rw [wrap_sub_one (by omega) hlt] at hq
      obtain ⟨hq1, hq2, hq3⟩ := prime_predecessor_bounds (by omega) (by omega) hq
      obtain ⟨ha, hb⟩ := ih q r hq1 hq2 (by omega) hr
      exact ⟨ha, by omega⟩

/-! ### The common-universe table and `prev_prime_3mod4` -/

theorem common_universes_entry_bounds :
    ∀ e ∈ common_universes, 0 < e.2 ∧ e.2 ≤ e.1 := by decide

theorem find?_common_some {u : ℕ} {e : ℕ × ℕ}
    (h : common_universes.find? (fun e => e.1 == u) = some e) :
    e ∈ common_universes ∧ e.1 = u := by
  refine ⟨List.mem_of_find?_eq_some h, ?_⟩
  have := List.find?_some h
  simpa using this

theorem prev3_search {f u r : ℕ}
    (htab : common_universes.find? (fun e => e.1 == u) = none)
    (h : prev_prime_3mod4 f u = some r) :
    r % 4 = 3 ∧ (is_prime r = true ∨ (u = 0 ∧ r = 0) ∨ (u = 2 ∧ r = 2)) := by
  unfold prev_prime_3mod4 at h
  rw [htab] at h
  obtain ⟨q, hq, hr⟩ := Option.bind_eq_some.mp h
  obtain ⟨hm, hpr⟩ := prev_loop_mod4 f q r hr
  rcases hpr with hip | rfl
  · exact ⟨hm, Or.inl hip⟩
  · rcases prime_predecessor_cases hq with ⟨h0, rfl⟩ | ⟨h2, rfl⟩ | hip
    · exact ⟨hm, Or.inr (Or.inl ⟨h0, rfl⟩)⟩
    · exact ⟨hm, Or.inr (Or.inr ⟨h2, rfl⟩)⟩
    · exact ⟨hm, Or.inl hip⟩

theorem prev3_ge_seven {f u r : ℕ}
    (htab : common_universes.find? (fun e => e.1 == u) = none)
    (h : prev_prime_3mod4 f u = some r) :
    7 ≤ r ∧ r % 4 = 3 ∧ is_prime r = true := by
  obtain ⟨hm, hca⟩ := prev3_search htab h
  rcases hca with hip | ⟨_, rfl⟩ | ⟨_, rfl⟩
  · have h5 := is_prime_five_le hip
    exact ⟨by omega, hm, hip⟩
  · simp at hm
  · simp at hm

theorem prev3_le {f u r : ℕ} (h7 : 7 ≤ u) (hlt : u < U64)
    (h : prev_prime_3mod4 f u = some r) : 0 < r ∧ r ≤ u := by
  unfold prev_prime_3mod4 at h
  cases htab : common_universes.find? (fun e => e.1 == u) with
  | some e =>
    rw [htab] at h
    simp only [Option.some.injEq] at h
    obtain ⟨hmem, heq⟩ := find?_common_some htab
    have hb := common_universes_entry_bounds e hmem
    omega
  | none =>
    rw [htab] at h
    obtain ⟨q, hq, hr⟩ := Option.bind_eq_some.mp h
    obtain ⟨hq1, hq2, hq3⟩ := prime_predecessor_bounds h7 hlt hq
    obtain ⟨ha, hb⟩ := prev_loop_bounds f q r hq1 hq2 (by omega) hr
    exact ⟨by omega, by omega⟩

/-! ### Pointwise facts about `permute` -/

theorem permute_zero {p : ℕ} (hp : 0 < p) : permute p 0 = 0 := by
  unfold permute
  rw [if_neg (by omega), if_pos (by omega)]
  simp

theorem permute_one {p : ℕ} (hp : 5 ≤ p) : permute p 1 = 1 := by
  unfold permute
  rw [if_neg (by omega), shiftRight_one_eq, if_pos (by omega)]
  simp [Nat.mod_eq_of_lt (by omega : 1 < p)]

theorem permute_two {p : ℕ} (hp : 5 ≤ p) : permute p 2 = 4 := by
  unfold permute
  rw [if_neg (by omega), shiftRight_one_eq, if_pos (by omega)]
  simp [Nat.mod_eq_of_lt (by omega : 2 * 2 < p)]

/-! ### The quadratic-residue bijection (`p` prime, `p % 4 = 3`) -/

theorem permute_lt {p : ℕ} (hp : Nat.Prime p) {x : ℕ} (hx : x < p) :
    permute p x < p := by
  unfold permute
  rw [if_neg (by omega)]
  by_cases hhalf : x ≤ p >>> 1
  · rw [if_pos hhalf]
    exact Nat.mod_lt _ hp.pos
  · rw [if_neg hhalf]
    rw [shiftRight_one_eq] at hhalf
    have hx0 : 0 < x := by
      have := hp.two_le
      omega
    have hnd : ¬ p ∣ x := fun hd => absurd (Nat.le_of_dvd hx0 hd) (by omega)
    have hr0 : x * x % p ≠ 0 := by
      rw [Ne, ← Nat.dvd_iff_mod_eq_zero]
      intro hd
      rcases (Nat.Prime.dvd_mul hp).mp hd with h | h <;> exact hnd h
    have hrlt : x * x % p < p := Nat.mod_lt _ hp.pos
    omega

theorem sq_mod_eq_cases {p : ℕ} (hp : Nat.Prime p) {a b : ℕ} (ha : a < p) (hb : b < p)
    (h : a * a % p = b * b % p) : a = b ∨ a + b = 0 ∨ a + b = p := by
  haveI := Fact.mk hp
  have hcast : ((a : ZMod p)) * a = ((b : ZMod p)) * b := by
    have h1 := congrArg (fun n : ℕ => (n : ZMod p)) h
    simpa [Nat.cast_mul] using h1
  have hfac : (((a : ZMod p)) - b) * (((a : ZMod p)) + b) = 0 := by
    have : (((a : ZMod p)) - b) * (((a : ZMod p)) + b) =
        ((a : ZMod p)) * a - ((b : ZMod p)) * b := by ring
    rw [this, hcast, sub_self]
  rcases mul_eq_zero.mp hfac with hc | hc
  · left
    have : (a : ZMod p) = b := sub_eq_zero.mp hc
    have hval := congrArg ZMod.val this
    rwa [ZMod.val_cast_of_lt ha, ZMod.val_cast_of_lt hb] at hval
  · right
    have hz : ((a + b : ℕ) : ZMod p) = 0 := by push_cast; exact hc
    haveI : NeZero p := ⟨hp.ne_zero⟩
    have hdvd : p ∣ a + b := (ZMod.natCast_zmod_eq_zero_iff_dvd _ _).mp hz
    obtain ⟨k, hk⟩ := hdvd
    have hppos := hp.pos
    have hk2 : k ≤ 1 := by nlinarith
    interval_cases k <;> omega

theorem mixed_sq_impossible {p : ℕ} (hp : Nat.Prime p) (h4 : p % 4 = 3) {a b : ℕ}
    (hb : b < p) (hbh : p / 2 < b)
    (heq : a * a % p = p - b * b % p) : False := by
  haveI := Fact.mk hp
  haveI : NeZero p := ⟨hp.ne_zero⟩
  have hp3 : 3 ≤ p := by
    have := hp.two_le
    omega
  have hb0 : 0 < b := by omega
  have hnd : ¬ p ∣ b := fun hd => absurd (Nat.le_of_dvd hb0 hd) (by omega)
  have hrb : b * b % p ≠ 0 := by
    rw [Ne, ← Nat.dvd_iff_mod_eq_zero]
    intro hd
    rcases (Nat.Prime.dvd_mul hp).mp hd with h | h <;> exact hnd h
  have hrb_lt : b * b % p < p := Nat.mod_lt _ hp.pos
  have hra_lt : a * a % p < p := Nat.mod_lt _ hp.pos
  have hsum : a * a % p + b * b % p = p := by omega
  have hz : ((a : ZMod p)) * a + ((b : ZMod p)) * b = 0 := by
    have h1 : (((a * a % p + b * b % p : ℕ)) : ZMod p) = ((p : ℕ) : ZMod p) := by
      rw [hsum]
    rw [Nat.cast_add, ZMod.natCast_mod, ZMod.natCast_mod, ZMod.natCast_self] at h1
    push_cast at h1
    exact h1
  have hbz : (b : ZMod p) ≠ 0 := by
    rw [Ne, ZMod.natCast_zmod_eq_zero_iff_dvd]
    exact hnd
  set A := (a : ZMod p) with hA
  set B := (b : ZMod p) with hB
  have hA2 : A * A = -(B * B) := eq_neg_of_add_eq_zero_left hz
  have hsq : (A * B⁻¹) * (A * B⁻¹) = -1 := by
    have hBB : B * B⁻¹ = 1 := mul_inv_cancel₀ hbz
    calc (A * B⁻¹) * (A * B⁻¹) = (A * A) * (B⁻¹ * B⁻¹) := by ring
    _ = -((B * B) * (B⁻¹ * B⁻¹)) := by rw [hA2]; ring
    _ = -((B * B⁻¹) * (B * B⁻¹)) := by ring
    _ = -1 := by rw [hBB]; ring
  exact (ZMod.exists_sq_eq_neg_one_iff.mp ⟨A * B⁻¹, hsq.symm⟩) h4

theorem permute_eq_of_lt {p x : ℕ} (hx : x < p) :
    permute p x = if x ≤ p / 2 then x * x % p else p - x * x % p := by
  unfold permute
  rw [if_neg (by omega), shiftRight_one_eq]

theorem permute_injOn {p : ℕ} (hp : Nat.Prime p) (h4 : p % 4 = 3) :
    Set.InjOn (permute p) (Set.Iio p) := by
  intro a ha b hb heq
  simp only [Set.mem_Iio] at ha hb
  have hodd : p % 2 = 1 := by omega
  have hmla : a * a % p < p := Nat.mod_lt _ hp.pos
  have hmlb : b * b % p < p := Nat.mod_lt _ hp.pos
  rw [permute_eq_of_lt ha, permute_eq_of_lt hb] at heq
  by_cases hA : a ≤ p / 2 <;> by_cases hB : b ≤ p / 2
  · rw [if_pos hA, if_pos hB] at heq
    rcases sq_mod_eq_cases hp ha hb heq with h | h | h
    · exact h
    · omega
    · omega
  · rw [if_pos hA, if_neg hB] at heq
    exact absurd heq (fun heq => mixed_sq_impossible hp h4 hb (by omega) heq)
  · rw [if_neg hA, if_pos hB] at heq
    exact absurd heq.symm (fun heq => mixed_sq_impossible hp h4 ha (by omega) heq)
  · rw [if_neg hA, if_neg hB] at heq
    have heq' : a * a % p = b * b % p := by omega
    rcases sq_mod_eq_cases hp ha hb heq' with h | h | h
    · exact h
    · omega
    · omega

theorem permute_bijOn {p : ℕ} (hp : Nat.Prime p) (h4 : p % 4 = 3) :
    Set.BijOn (permute p) (Set.Iio p) (Set.Iio p) := by
  have hmaps : Set.MapsTo (permute p) (Set.Iio p) (Set.Iio p) := fun x hx => permute_lt hp hx
  have hinj := permute_injOn hp h4
  refine ⟨hmaps, hinj, ?_⟩
  have himg : (Finset.range p).image (permute p) = Finset.range p := by
    apply Finset.eq_of_subset_of_card_le
    · intro z hz
      simp only [Finset.mem_image, Finset.mem_range] at hz ⊢
      obtain ⟨x, hx, rfl⟩ := hz
      exact permute_lt hp hx
    · rw [Finset.card_image_of_injOn]
      rw [Finset.coe_range]
      exact hinj
  intro y hy
  have hy' : y ∈ (Finset.range p).image (permute p) := by
    rw [himg]
    simpa [Finset.mem_range] using hy
  simp only [Finset.mem_image, Finset.mem_range] at hy'
  obtain ⟨x, hx, hxy⟩ := hy'
  exact ⟨x, by simpa using hx, hxy⟩

/-! ### The iterator traversal -/

theorem iter_false_ne_end {P : RandomPermutation} {k : ℕ} :
    (⟨k, false⟩ : Iterator) ≠ P.iterEnd := by
  simp [RandomPermutation.iterEnd]

theorem iterIdx_go (P : RandomPermutation) (hlt : P.universe_ < U64) :
    ∀ n k fuel, k + n = P.universe_ → n + 2 ≤ fuel →
      P.iterIdx fuel ⟨k, false⟩ = List.range' k (n + 1) := by
  intro n
  induction n with
  | zero =>
    intro k fuel hk hfuel
    obtain ⟨f, rfl⟩ : ∃ f, fuel = f + 2 := ⟨fuel - 2, by omega⟩
    have hk' : k = P.universe_ := by omega
    have hstep : P.iterStep ⟨k, false⟩ = P.iterEnd := by
      simp [RandomPermutation.iterStep, RandomPermutation.iterEnd, hk']
    show P.iterIdx (f + 1 + 1) ⟨k, false⟩ = List.range' k 1
    rw [RandomPermutation.iterIdx, if_neg iter_false_ne_end, hstep,
      RandomPermutation.iterIdx, if_pos rfl]
    rfl
  | succ n ih =>
    intro k fuel hk hfuel
    obtain ⟨f, rfl⟩ : ∃ f, fuel = f + 1 := ⟨fuel - 1, by omega⟩
    have hkne : k ≠ P.universe_ := by omega
    have hstep : P.iterStep ⟨k, false⟩ = ⟨k + 1, false⟩ := by
      simp only [RandomPermutation.iterStep, Iterator.mk.injEq, decide_eq_false_iff_not]
      exact ⟨Nat.mod_eq_of_lt (by omega), hkne⟩
    rw [RandomPermutation.iterIdx, if_neg iter_false_ne_end, hstep,
      ih (k + 1) f (by omega) (by omega)]
    rfl

/-! ### Claim theorems -/

/-- C1.  The claim says `permute_index` is a bijection on `[0, universe)`
for every `universe ≥ 1` and every seed.  At `universe = 3`, `seed = 0`
the code violates this: whatever prime the constructor's search returns
(it is some `is_prime`-accepted value `≥ 7`, far above the universe,
because `is_prime 3 = false` makes the search wrap below zero), the
queries at indices 1 and 2 collide: both reduce the seed offset modulo 3
to the same value, since `permute` maps 1 to 1 and 2 to 4 and
`4 ≡ 1 (mod 3)`. -/
theorem c1_collision_universe_three :
    ∀ fuel : ℕ, (rpMake fuel 3 0).elim True fun P => P.apply 1 = P.apply 2 := by
  intro fuel
  cases h : rpMake fuel 3 0 with
  | none => trivial
  | some P =>
    obtain ⟨r, hr, hP⟩ := Option.map_eq_some'.mp h
    obtain ⟨h7, _, _⟩ := prev3_ge_seven (by decide) hr
    subst hP
    show permute r ((((0 ^^^ SHUFFLE1) ^^^ SHUFFLE2) + permute r 1) % U64 % 3) =
      permute r ((((0 ^^^ SHUFFLE1) ^^^ SHUFFLE2) + permute r 2) % U64 % 3)
    rw [permute_one (by omega), permute_two (by omega)]
    have h1 : (((0 ^^^ SHUFFLE1) ^^^ SHUFFLE2) + 1) % U64 % 3 = 0 := by decide
    have h2 : (((0 ^^^ SHUFFLE1) ^^^ SHUFFLE2) + 4) % U64 % 3 = 0 := by decide
    rw [h1, h2]

/-- C2.  The public query `operator()` computes exactly
`permute((seed_internal + permute(i)) mod universe)` with
`seed_internal = seed XOR 0x9696594B6A5936B2 XOR 0xD2165B4B66592AD6`,
where the addition is 64-bit (wrapping) addition as in the code;
`spec_permute_index` is that formula written from the spec's words. -/
theorem c2_query_formula (fuel u seed : ℕ) (P : RandomPermutation)
    (h : rpMake fuel u seed = some P) (i : ℕ) :
    P.apply i = spec_permute_index u P.prime_ seed i := by
  obtain ⟨r, hr, hP⟩ := Option.map_eq_some'.mp h
  subst hP
  rfl

theorem c2_query_formula_witness :
    (⟨65535, (0 ^^^ SHUFFLE1) ^^^ SHUFFLE2, 65519⟩ : RandomPermutation).apply 3 =
      spec_permute_index 65535 65519 0 3 :=
  c2_query_formula 1 65535 0 _ (by decide) 3

/-- C3 (amended).  For every universe `u` with `7 ≤ u < 2^64` and every
seed, whenever construction completes, the stored prime satisfies
`0 < prime ≤ universe` (table hit or search; the claim's original range
`universe ≥ 1` fails for `universe ≤ 6`, see the counterexample). -/
theorem c3_prime_le_universe (u fuel seed : ℕ) (P : RandomPermutation)
    (h7 : 7 ≤ u) (hlt : u < U64) (h : rpMake fuel u seed = some P) :
    0 < P.prime_ ∧ P.prime_ ≤ u := by
  obtain ⟨r, hr, hP⟩ := Option.map_eq_some'.mp h
  subst hP
  exact prev3_le h7 hlt hr

theorem c3_prime_le_universe_witness :
    0 < (⟨65535, (0 ^^^ SHUFFLE1) ^^^ SHUFFLE2, 65519⟩ : RandomPermutation).prime_ ∧
      (⟨65535, (0 ^^^ SHUFFLE1) ^^^ SHUFFLE2, 65519⟩ : RandomPermutation).prime_ ≤ 65535 :=
  c3_prime_le_universe 65535 1 0 _ (by norm_num) (by norm_num [U64]) (by decide)

/-- C3 (counterexample).  The claim as stated requires the permutation
built over `universe = 2` to store a prime `≤ 2`; the code never does:
any completed construction stores an `is_prime`-accepted value `≡ 3
(mod 4)`, which is at least 7. -/
theorem c3_prime_le_universe_cex :
    ¬ ∃ fuel seed P, rpMake fuel 2 seed = some P ∧ P.prime_ ≤ 2 := by
  rintro ⟨fuel, seed, P, hP, hle⟩
  obtain ⟨r, hr, hPe⟩ := Option.map_eq_some'.mp hP
  subst hPe
  obtain ⟨h7, _, _⟩ := prev3_ge_seven (by decide) hr
  simp only at hle
  omega

/-- C4.  The claim says `prev_prime_3mod4(universe)` returns the largest
prime `p ≤ universe` with `p % 4 = 3` for every `universe ≥ 3`.  At
`universe = 3` that largest prime is 3 itself (3 is prime, `3 % 4 = 3`,
and no other prime `≡ 3 (mod 4)` is `≤ 3`), yet the search can never
return 3: every value it returns exceeds 3, because `is_prime 3 = false`
sends the scan wrapping below zero. -/
theorem c4_search_never_returns_three :
    (∀ fuel : ℕ, (prev_prime_3mod4 fuel 3).elim True fun r => 3 < r) ∧
      Nat.Prime 3 ∧ 3 % 4 = 3 ∧
      ∀ q : ℕ, Nat.Prime q → q % 4 = 3 → q ≤ 3 → q = 3 := by
  refine ⟨?_, by norm_num, by norm_num, ?_⟩
  · intro fuel
    cases h : prev_prime_3mod4 fuel 3 with
    | none => trivial
    | some r =>
      obtain ⟨h7, _, _⟩ := prev3_ge_seven (by decide) h
      show 3 < r
      omega
  · intro q hq h4 hle
    have h2 := hq.two_le
    interval_cases q
    · simp at h4
    · rfl

/-- C5.  For every prime `p ≡ 3 (mod 4)`, the inner one-phase step
`permute p` (squaring mod `p` with the upper-half reflection) is a
bijection of `[0, p)` onto itself. -/
theorem c5_permute_bijection (p : ℕ) (hp : Nat.Prime p) (h4 : p % 4 = 3) :
    Set.BijOn (permute p) (Set.Iio p) (Set.Iio p) :=
  permute_bijOn hp h4

theorem c5_permute_bijection_witness :
    Set.BijOn (permute 3) (Set.Iio 3) (Set.Iio 3) :=
  c5_permute_bijection 3 (by norm_num) (by norm_num)

/-- C6 (amended).  Iterating a cursor from `begin()` until it compares
equal to `end()` dereferences exactly the indices `0` through
`universe_` — that is `universe_ + 1` positions, one more than the
claim's `0` through `universe_ - 1` — for every permutation value whose
universe is a `u64` (including the wraparound case
`universe_ = 2^64 - 1`, where only the overflow flag separates `end()`
from a fresh cursor at index 0). -/
theorem c6_iteration_indices (P : RandomPermutation) (hlt : P.universe_ < U64) :
    P.iterIdx (P.universe_ + 2) P.iterBegin = List.range (P.universe_ + 1) := by
  have h0 : P.iterBegin = ⟨0, false⟩ := by
    simp [RandomPermutation.iterBegin, RandomPermutation.iterAt]
  rw [h0, iterIdx_go P hlt P.universe_ 0 (P.universe_ + 2) (by omega) (le_refl _),
    List.range_eq_range']

theorem c6_iteration_indices_witness :
    rpDefault.iterIdx (rpDefault.universe_ + 2) rpDefault.iterBegin =
      List.range (rpDefault.universe_ + 1) :=
  c6_iteration_indices rpDefault (by norm_num [rpDefault, U64])

/-- C6 (counterexample).  For the default-constructed permutation
(`universe_ = 1`) the begin-to-end loop dereferences the indices
`[0, 1]` — two positions — not the single index `[0] = range universe_`
the claim describes. -/
theorem c6_iteration_cex :
    rpDefault.iterIdx 5 rpDefault.iterBegin = [0, 1] ∧
      rpDefault.iterIdx 5 rpDefault.iterBegin ≠ List.range rpDefault.universe_ := by
  constructor <;> decide

/-- C7.  The claim says `is_prime` classifies correctly over all of
`u64`, including 0, 1 and 2.  The code returns `false` for the primes 2
(the evenness fast path rejects it) and 3 (the wheel start underflows to
1 and `p % 1 = 0` rejects it). -/
theorem c7_is_prime_misclassifies_two_three :
    is_prime 2 = false ∧ is_prime 3 = false ∧ Nat.Prime 2 ∧ Nat.Prime 3 :=
  ⟨by decide, by decide, by norm_num, by norm_num⟩

/-- C8.  The claim says `prime_predecessor(p)` is the largest prime
`≤ p`; at `p = 3` that is 3, but every value the code can return is at
least 5 (`is_prime 3 = false`, so the scan steps past 3 and 1, wraps to
`2^64 - 1` and can only stop at an `is_prime`-accepted value). -/
theorem c8_prime_predecessor_at_three :
    (∀ fuel : ℕ, (prime_predecessor fuel 3).elim True fun r => 5 ≤ r) ∧ Nat.Prime 3 := by
  refine ⟨?_, by norm_num⟩
  intro fuel
  cases h : prime_predecessor fuel 3 with
  | none => trivial
  | some r =>
    rcases prime_predecessor_cases h with ⟨h0, _⟩ | ⟨h2, _⟩ | hip
    · omega
    · omega
    · exact is_prime_five_le hip

/-- C9.  The claim says `isqrt_floor` is the exact rounded-down integer
square root; at `x = 8` the code returns 4 (the digit loop starts its
accumulator at 1 where, for even bit-length inputs, the correct leading
digit is 0), while `⌊√8⌋ = 2`, violating `isqrt_floor(x)^2 ≤ x`;
`isqrt_ceil 8 = 4` instead of 3 likewise. -/
theorem c9_isqrt_floor_wrong_at_eight :
    isqrt_floor 8 = 4 ∧ isqrt_ceil 8 = 4 ∧ Nat.sqrt 8 = 2 ∧
      ¬ isqrt_floor 8 * isqrt_floor 8 ≤ 8 := by
  have hs : Nat.sqrt 8 = 2 := by
    have h1 : 2 ≤ Nat.sqrt 8 := Nat.le_sqrt.mpr (by norm_num)
    have h2 : Nat.sqrt 8 < 3 := Nat.sqrt_lt.mpr (by norm_num)
    omega
  exact ⟨by decide, by decide, hs, by decide⟩

/-- C10.  The claim says every query result is `< universe`.  At
`universe = 3`, `seed = 0`, index 0 the result is 4: the constructed
prime is some `is_prime`-accepted value `≥ 7` (not `≤ 3`, because
`is_prime 3 = false` derails the search), the seed offset lands on
residue 2, and `permute` maps 2 to 4, which both branches then leave
outside `[0, 3)`. -/
theorem c10_out_of_range_output :
    ∀ fuel : ℕ,
      (rpMake fuel 3 0).elim True fun P => P.apply 0 = 4 ∧ P.universe_ ≤ P.apply 0 := by
  intro fuel
  cases h : rpMake fuel 3 0 with
  | none => trivial
  | some P =>
    obtain ⟨r, hr, hP⟩ := Option.map_eq_some'.mp h
    obtain ⟨h7, _, _⟩ := prev3_ge_seven (by decide) hr
    subst hP
    have happ : RandomPermutation.apply ⟨3, (0 ^^^ SHUFFLE1) ^^^ SHUFFLE2, r⟩ 0 = 4 := by
      show permute r ((((0 ^^^ SHUFFLE1) ^^^ SHUFFLE2) + permute r 0) % U64 % 3) = 4
      rw [permute_zero (by omega)]
      have hmod : (((0 ^^^ SHUFFLE1) ^^^ SHUFFLE2) + 0) % U64 % 3 = 2 := by decide
      rw [hmod, permute_two (by omega)]
    exact ⟨happ, by simp only [happ]; omega⟩
